import Mathlib

/-!
# Message-Queue: the topic store and the consumer wait logic of `main.go`

A shallow embedding of `DB` (`New`, `GetMsg`, `PutMsg`, `newTopicChan`, `Len`), of
`Server.consumer` and of `Server.msgHandler`, followed by the properties of the specification
that concern them.

Go maps are association lists with unique keys (`AList`). Every store method is one step
executed atomically; what the other requests do while a consumer is blocked is given by a
script. The mutex appears only in the section on lock discipline, which lists the mutex and
map operations of each function in the order the function performs them.
-/

namespace MessageQueue

/-- Go: `type topic string`. -/
abbrev topic := String

/-- A value of type `chan struct{}`: `none` is the nil channel, `some i` is the channel
returned by the `i`-th evaluation of `make(chan struct{})`. -/
abbrev Chan := Option Nat

/-- Go: `WithoutWaiting = -2`. -/
def WithoutWaiting : Int := -2

/-- Go: `EndlessWaiting = -1`. -/
def EndlessWaiting : Int := -1

/-- The store `DB`. `queue` and `globalQueue` are the two maps of the struct. The other two
fields are the part of the Go runtime the methods act on: `made` counts the channels
allocated so far, `sends` lists (by topic, in spawn order) the goroutines started by `PutMsg`
that have not yet completed their send on the topic's signal channel. -/
structure DB where
  queue : AList (fun _ : topic => List String)
  globalQueue : AList (fun _ : topic => Chan)
  made : Nat
  sends : List topic

/-- Go: `New()`, two empty maps. -/
def New : DB :=
  { queue := ∅, globalQueue := ∅, made := 0, sends := [] }

/-- Go: the map read `db.globalQueue[t]`, which is nil for an absent key. -/
def chanOf (db : DB) (t : topic) : Chan :=
  (db.globalQueue.lookup t).getD none

/-- Go: the map read `db.queue[t]` without the `ok` result, nil (empty) for an absent key. -/
def pending (db : DB) (t : topic) : List String :=
  (db.queue.lookup t).getD []

/-- Go: `newTopicChan`. A channel is made only when `db.globalQueue[t] == nil`. -/
def newTopicChan (db : DB) (t : topic) : DB :=
  if chanOf db t = none then
    { db with globalQueue := db.globalQueue.insert t (some db.made), made := db.made + 1 }
  else db

/-- Go: `GetMsg`. Returns `((msg, ok), store after the call)`. -/
def GetMsg (db : DB) (t : topic) : (String × Bool) × DB :=
  match db.queue.lookup t with
  | none => (("", false), newTopicChan db t)
  | some [] => (("", false), db)
  | some (m :: rest) => ((m, true), { db with queue := db.queue.insert t rest })

/-- Go: `PutMsg`. The goroutine started at the end is recorded in `sends`. -/
def PutMsg (db : DB) (t : topic) (n : String) : DB :=
  let db1 := if (db.queue.lookup t).isNone then newTopicChan db t else db
  let db2 := { db1 with queue := db1.queue.insert t (pending db1 t ++ [n]) }
  { db2 with sends := db2.sends ++ [t] }

/-- Go: `Len`, the number of keys of `db.queue`. -/
def Len (db : DB) : Nat :=
  db.queue.keys.length

/-- A call of one of the two store methods. -/
inductive Op where
  | get (t : topic)
  | put (t : topic) (n : String)
  deriving DecidableEq, Repr

/-- A completed call together with what it returned. -/
inductive Call where
  | got (t : topic) (msg : String) (ok : Bool)
  | didPut (t : topic) (n : String)
  deriving DecidableEq, Repr

/-- The store after one call. -/
def step (db : DB) : Op → DB
  | .get t => (GetMsg db t).2
  | .put t n => PutMsg db t n

/-- The record of one call made on `db`. -/
def record (db : DB) : Op → Call
  | .get t => .got t (GetMsg db t).1.1 (GetMsg db t).1.2
  | .put t n => .didPut t n

/-- The store after a sequence of calls executed one after the other. -/
def run (db : DB) : List Op → DB
  | [] => db
  | op :: ops => run (step db op) ops

/-- The records of a sequence of calls executed one after the other, in call order. -/
def log (db : DB) : List Op → List Call
  | [] => []
  | op :: ops => record db op :: log (step db op) ops

/-- The messages passed to `PutMsg(t, _)` in a sequence of calls, in call order. -/
def enqueued (t : topic) : List Op → List String
  | [] => []
  | .put u n :: ops => if u = t then n :: enqueued t ops else enqueued t ops
  | .get _ :: ops => enqueued t ops

/-- The messages returned by the `GetMsg(t)` calls of a log that reported found, in call
order. -/
def delivered (t : topic) : List Call → List String
  | [] => []
  | .got u msg ok :: cs =>
    if u = t ∧ ok = true then msg :: delivered t cs else delivered t cs
  | .didPut _ _ :: cs => delivered t cs

/-- The number of `GetMsg(t)` calls of a log that reported found. -/
def foundCount (t : topic) : List Call → Nat
  | [] => 0
  | .got u _ ok :: cs => if u = t ∧ ok = true then foundCount t cs + 1 else foundCount t cs
  | .didPut _ _ :: cs => foundCount t cs

/-- The number of `PutMsg(t, _)` calls in a sequence of calls. -/
def putCount (t : topic) : List Op → Nat
  | [] => 0
  | .put u _ :: ops => if u = t then putCount t ops + 1 else putCount t ops
  | .get _ :: ops => putCount t ops

/-- The topics that appear as the argument of a call, in call order. -/
def touched : List Op → List topic
  | [] => []
  | .get t :: ops => t :: touched ops
  | .put t _ :: ops => t :: touched ops

/-- The topics that appear as the argument of a `PutMsg` call, in call order. -/
def written : List Op → List topic
  | [] => []
  | .get _ :: ops => written ops
  | .put t _ :: ops => t :: written ops

/-- The results of `k` consecutive calls of `GetMsg(t)`. -/
def getN (db : DB) (t : topic) : Nat → List (String × Bool)
  | 0 => []
  | k + 1 => (GetMsg db t).1 :: getN (GetMsg db t).2 t k

/-- A store is reachable when some sequence of calls leads to it from `New()`. -/
def Reachable (db : DB) : Prop :=
  ∃ ops : List Op, db = run New ops

/-- What can end a blocked wait of `consumer`. -/
inductive Wake where
  /-- A value sent by one of the goroutines of `PutMsg` is received. -/
  | signal
  /-- The receive reports the channel closed (`ok` is false). -/
  | closed
  /-- The channel returned by `time.After` delivers. -/
  | timer
  deriving DecidableEq, Repr

/-- One stretch of a blocked wait: the calls other requests make on the store while this
consumer is blocked, then the event offered to it. -/
structure Tick where
  others : List Op
  wake : Wake

/-- The operations of `consumer` that the specification tells apart. -/
inductive Event where
  /-- A call `s.db.GetMsg(t)`. -/
  | getMsg (t : topic)
  /-- A receive from `s.db.globalQueue[t]` is started. -/
  | recv (t : topic)
  /-- A timer is started: `time.After(d)` is evaluated, `d` in nanoseconds. -/
  | after (d : Int)
  deriving DecidableEq, Repr

/-- The result of running `consumer` against a script of ticks: `result` is `none` when the
consumer is still blocked at the end of the script. -/
structure Outcome where
  result : Option (String × Bool)
  db : DB
  trace : List Event

/-- Conversion to Go `int64` (`time.Duration`), two's complement wrap-around. -/
def toInt64 (x : Int) : Int :=
  (x + 2 ^ 63) % 2 ^ 64 - 2 ^ 63

/-- Go: `time.Second * time.Duration(timeout)`, in nanoseconds. -/
def duration (timeout : Int) : Int :=
  toInt64 (1000000000 * toInt64 timeout)

/-- A receive from channel `c` of topic `t` can complete with a value: `c` is not nil and a
goroutine of `PutMsg` is waiting to send on the topic's channel. -/
def canRecv (db : DB) (t : topic) (c : Chan) : Bool :=
  c.isSome && decide (t ∈ db.sends)

/-- Go: the loop of the `timeout == EndlessWaiting` branch of `consumer`, entered blocked in
`<-s.db.globalQueue[t]`, where `c` is the channel value read on entry. A receive from the nil
channel never completes. -/
def endlessWait (t : topic) : Chan → List Tick → DB → List Event → Outcome
  | _, [], db, tr => ⟨none, db, tr⟩
  | c, tick :: env, db, tr =>
    let db1 := run db tick.others
    match tick.wake with
    | .timer => endlessWait t c env db1 tr
    | .closed =>
      if c.isSome then ⟨some ("", false), db1, tr⟩ else endlessWait t c env db1 tr
    | .signal =>
      if canRecv db1 t c then
        let db2 := { db1 with sends := db1.sends.erase t }
        let r := GetMsg db2 t
        if r.1.2 then ⟨some r.1, r.2, tr ++ [.getMsg t]⟩
        else endlessWait t (chanOf r.2 t) env r.2 (tr ++ [.getMsg t, .recv t])
      else endlessWait t c env db1 tr

/-- Go: the loop of the last branch of `consumer`, entered blocked in the `select` between
`<-s.db.globalQueue[t]` (channel value `c`) and `<-time.After(...)`. -/
def timedWait (t : topic) (timeout : Int) : Chan → List Tick → DB → List Event → Outcome
  | _, [], db, tr => ⟨none, db, tr⟩
  | c, tick :: env, db, tr =>
    let db1 := run db tick.others
    match tick.wake with
    | .timer => ⟨some ("", false), db1, tr⟩
    | .closed =>
      if c.isSome then ⟨some ("", false), db1, tr⟩ else timedWait t timeout c env db1 tr
    | .signal =>
      if canRecv db1 t c then
        let db2 := { db1 with sends := db1.sends.erase t }
        let r := GetMsg db2 t
        if r.1.2 then ⟨some r.1, r.2, tr ++ [.getMsg t]⟩
        else timedWait t timeout (chanOf r.2 t) env r.2
          (tr ++ [.getMsg t, .recv t, .after (duration timeout)])
      else timedWait t timeout c env db1 tr

/-- Go: `Server.consumer`, run on the store `db` of the server against the script `env`. -/
def consumer (db : DB) (t : topic) (timeout : Int) (env : List Tick) : Outcome :=
  let r := GetMsg db t
  if r.1.2 then ⟨some r.1, r.2, [.getMsg t]⟩
  else if timeout = WithoutWaiting then ⟨some ("", false), r.2, [.getMsg t]⟩
  else if timeout = EndlessWaiting then
    endlessWait t (chanOf r.2 t) env r.2 [.getMsg t, .recv t]
  else
    timedWait t timeout (chanOf r.2 t) env r.2 [.getMsg t, .recv t, .after (duration timeout)]

/-! ## The request boundary: `Server.msgHandler` -/

/-- Go standard library: `strings.Split(s, "/")` on the characters of `s`. The result has one
more element than `s` has slashes; the empty string gives one empty segment. -/
def splitSlash : List Char → List (List Char)
  | [] => [[]]
  | c :: cs =>
    if c = '/' then [] :: splitSlash cs
    else
      match splitSlash cs with
      | [] => [[c]]
      | seg :: segs => (c :: seg) :: segs

/-- Go standard library: `strings.Split(s, "/")`. -/
def Split (s : String) : List String :=
  (splitSlash s.data).map String.mk

/-- Go standard library: `url.Values.Get`, the first value stored under the key, or the empty
string when there is none. The parsed query `r.URL.Query()` is a map from keys to lists of
values. -/
def Get (query : String → List String) (key : String) : String :=
  (query key).headD ""

/-- The value of a decimal digit, `none` for any other character. -/
def digitValue (c : Char) : Option Nat :=
  if 48 ≤ c.toNat ∧ c.toNat ≤ 57 then some (c.toNat - 48) else none

/-- The number written by a list of decimal digits, most significant first, continuing from
`acc`; `none` when a character is not a digit. -/
def parseDigits : List Char → Nat → Option Nat
  | [], acc => some acc
  | c :: cs, acc =>
    match digitValue c with
    | none => none
    | some d => parseDigits cs (10 * acc + d)

/-- Go standard library: `strconv.Atoi` for a 64-bit `int`. An optional sign followed by at
least one decimal digit; `none` stands for a non-nil error (syntax or range). -/
def Atoi (s : String) : Option Int :=
  let signed : Bool × List Char :=
    match s.data with
    | '-' :: ds => (true, ds)
    | '+' :: ds => (false, ds)
    | ds => (false, ds)
  if signed.2 = [] then none
  else
    match parseDigits signed.2 0 with
    | none => none
    | some n =>
      let v : Int := if signed.1 then -(n : Int) else (n : Int)
      if v < -(2 ^ 63) ∨ 2 ^ 63 - 1 < v then none else some v

/-- The part of `*http.Request` that `msgHandler` reads: `r.Method`, `r.URL.Path` and the
parsed query `r.URL.Query()`. -/
structure Request where
  method : String
  path : String
  query : String → List String

/-- What `msgHandler` writes to the `http.ResponseWriter`: the status code of `WriteHeader`
and the bytes of `Write` (none written gives the empty body). -/
structure Response where
  status : Nat
  body : String
  deriving DecidableEq, Repr

/-- The result of running `msgHandler`: `response` is `none` when the handler is still
blocked inside `consumer` at the end of the script. -/
structure Handled where
  response : Option Response
  db : DB
  trace : List Event

/-- Go: `Server.msgHandler`, run on the store `db` of the server against the script `env`.
Status codes: `StatusOK` 200, `StatusBadRequest` 400, `StatusNotFound` 404; methods:
`MethodGet` is `GET`, `MethodPut` is `PUT`. -/
def msgHandler (db : DB) (r : Request) (env : List Tick) : Handled :=
  match Split r.path with
  | [_, t] =>
    if t = "" then ⟨some ⟨400, ""⟩, db, []⟩
    else if r.method = "GET" then
      let timeout : Int :=
        match Atoi (Get r.query "timeout") with
        | none => EndlessWaiting
        | some n => n
      let out := consumer db t timeout env
      match out.result with
      | none => ⟨none, out.db, out.trace⟩
      | some (msg, ok) =>
        if !ok then ⟨some ⟨404, ""⟩, out.db, out.trace⟩
        else ⟨some ⟨200, msg⟩, out.db, out.trace⟩
    else if r.method = "PUT" then
      let name := Get r.query "v"
      if name = "" then ⟨some ⟨400, ""⟩, db, []⟩
      else ⟨some ⟨200, ""⟩, PutMsg db t name, []⟩
    else ⟨some ⟨404, ""⟩, db, []⟩
  | _ => ⟨some ⟨400, ""⟩, db, []⟩

/-- The query with no parameter. -/
def noQuery : String → List String :=
  fun _ => []

/-- The query holding the single parameter `key=value`. -/
def oneParam (key value : String) : String → List String :=
  fun k => if k = key then [value] else []

/-- The paths the specification calls well-formed: `/` followed by one non-empty segment
that contains no `/`. -/
def wellFormedPath (p : String) : Bool :=
  match p.data with
  | '/' :: cs => decide (cs ≠ []) && decide ('/' ∉ cs)
  | _ => false

/-! ## Lock discipline: what each function does to the mutex and to the two maps -/

/-- An operation on the mutex `db.m` or on one of the two maps, as a function performs it. -/
inductive Access where
  /-- Go: `db.m.Lock()`. -/
  | lock
  /-- Go: `db.m.Unlock()`, deferred to the return of the function. -/
  | unlock
  /-- A lookup or an assignment on `db.queue`, or `len(db.queue)`. -/
  | queue
  /-- A lookup or an assignment on `db.globalQueue`. -/
  | globalQueue
  deriving DecidableEq, Repr

/-- Go: `newTopicChan`, the comparison `db.globalQueue[t] == nil` and, when it holds, the
assignment to `db.globalQueue[t]`. The function itself does not touch the mutex. -/
def newTopicChanAccesses (db : DB) (t : topic) : List Access :=
  if chanOf db t = none then [.globalQueue, .globalQueue] else [.globalQueue]

/-- Go: `GetMsg`, by the same three cases as `GetMsg` above. -/
def GetMsgAccesses (db : DB) (t : topic) : List Access :=
  match db.queue.lookup t with
  | none => [.lock, .queue] ++ newTopicChanAccesses db t ++ [.unlock]
  | some [] => [.lock, .queue, .unlock]
  | some (_ :: _) => [.lock, .queue, .queue, .queue, .unlock]

/-- Go: `PutMsg`, the operations of the calling goroutine. -/
def PutMsgAccesses (db : DB) (t : topic) : List Access :=
  [.lock, .queue] ++
    (if (db.queue.lookup t).isNone then newTopicChanAccesses db t else []) ++
    [.queue, .queue, .unlock]

/-- Go: the goroutine started by `PutMsg`, `db.globalQueue[t] <- struct{}{}`. It runs on its
own and never calls `Lock`. -/
def notifyAccesses : List Access :=
  [.globalQueue]

/-- Go: `Len`, `len(db.queue)` with no call of `Lock`. -/
def LenAccesses : List Access :=
  [.queue]

/-- Go: one receive of `consumer`, `<-s.db.globalQueue[t]`, evaluated between two calls of
`GetMsg` with no call of `Lock`. -/
def recvAccesses : List Access :=
  [.globalQueue]

/-- Every access to a map in the list is made by a goroutine that holds the lock, where
`held` tells whether it holds the lock at the start. -/
def guardedFrom : Bool → List Access → Bool
  | _, [] => true
  | _, .lock :: rest => guardedFrom true rest
  | _, .unlock :: rest => guardedFrom false rest
  | held, .queue :: rest => held && guardedFrom held rest
  | held, .globalQueue :: rest => held && guardedFrom held rest

/-- Every access to a map in the list is made while holding the lock, for a goroutine that
starts without it. -/
def guarded (accesses : List Access) : Bool :=
  guardedFrom false accesses

/-! ## The two store methods, case by case -/

theorem newTopicChan_queue (db : DB) (t : topic) : (newTopicChan db t).queue = db.queue := by
  unfold newTopicChan
  split <;> rfl

theorem PutMsg_queue (db : DB) (t : topic) (n : String) :
    (PutMsg db t n).queue = db.queue.insert t (pending db t ++ [n]) := by
  unfold PutMsg
  by_cases h : (db.queue.lookup t).isNone
  · simp [h, newTopicChan_queue, pending]
  · simp [h]

theorem lookup_of_pending_cons {db : DB} {t : topic} {m : String} {rest : List String}
    (h : pending db t = m :: rest) : db.queue.lookup t = some (m :: rest) := by
  unfold pending at h
  cases hl : db.queue.lookup t with
  | none => simp [hl] at h
  | some q => simpa [hl] using h

theorem pending_PutMsg (db : DB) (u t : topic) (n : String) :
    pending (PutMsg db u n) t = if u = t then pending db t ++ [n] else pending db t := by
  by_cases h : u = t
  · subst h
    simp [pending, PutMsg_queue]
  · have h2 : t ≠ u := fun e => h e.symm
    simp [pending, PutMsg_queue, h, AList.lookup_insert_ne h2]

theorem GetMsg_found (db : DB) (t : topic) (m : String) (rest : List String)
    (h : db.queue.lookup t = some (m :: rest)) :
    GetMsg db t = ((m, true), { db with queue := db.queue.insert t rest }) := by
  simp [GetMsg, h]

theorem GetMsg_missing (db : DB) (t : topic) (h : db.queue.lookup t = none) :
    GetMsg db t = (("", false), newTopicChan db t) := by
  simp [GetMsg, h]

theorem GetMsg_empty (db : DB) (t : topic) (h : db.queue.lookup t = some []) :
    GetMsg db t = (("", false), db) := by
  simp [GetMsg, h]

/-- What a call of `GetMsg` does, by the three cases of the lookup. -/
theorem GetMsg_cases (db : DB) (t : topic) :
    (db.queue.lookup t = none ∧ GetMsg db t = (("", false), newTopicChan db t)) ∨
    (db.queue.lookup t = some [] ∧ GetMsg db t = (("", false), db)) ∨
    (∃ m rest, db.queue.lookup t = some (m :: rest) ∧
      GetMsg db t = ((m, true), { db with queue := db.queue.insert t rest })) := by
  cases h : db.queue.lookup t with
  | none => exact Or.inl ⟨rfl, GetMsg_missing db t h⟩
  | some q =>
    cases q with
    | nil => exact Or.inr (Or.inl ⟨rfl, GetMsg_empty db t h⟩)
    | cons m rest => exact Or.inr (Or.inr ⟨m, rest, rfl, GetMsg_found db t m rest h⟩)

theorem GetMsg_queue_of_not_found (db : DB) (t : topic) (h : (GetMsg db t).1.2 = false) :
    (GetMsg db t).2.queue = db.queue := by
  rcases GetMsg_cases db t with ⟨_, e⟩ | ⟨_, e⟩ | ⟨m, rest, _, e⟩
  · rw [e]; exact newTopicChan_queue db t
  · rw [e]
  · rw [e] at h; simp at h

theorem pending_GetMsg_ne (db : DB) (u t : topic) (h : u ≠ t) :
    pending (GetMsg db u).2 t = pending db t := by
  rcases GetMsg_cases db u with ⟨_, e⟩ | ⟨_, e⟩ | ⟨m, rest, _, e⟩
  · rw [e]; simp [pending, newTopicChan_queue]
  · rw [e]
  · rw [e]
    have h2 : t ≠ u := fun e => h e.symm
    simp [pending, AList.lookup_insert_ne h2]

theorem pending_GetMsg_found (db : DB) (t : topic) (h : (GetMsg db t).1.2 = true) :
    pending db t = (GetMsg db t).1.1 :: pending (GetMsg db t).2 t := by
  rcases GetMsg_cases db t with ⟨_, e⟩ | ⟨_, e⟩ | ⟨m, rest, hl, e⟩
  · rw [e] at h; simp at h
  · rw [e] at h; simp at h
  · rw [e]; simp [pending, hl]

theorem pending_GetMsg_not_found (db : DB) (u t : topic) (h : (GetMsg db u).1.2 = false) :
    pending (GetMsg db u).2 t = pending db t := by
  simp [pending, GetMsg_queue_of_not_found db u h]

/-- Delivery history followed by the queue is the queue at the start followed by the enqueue
history. -/
theorem history (ops : List Op) : ∀ (db : DB) (t : topic),
    delivered t (log db ops) ++ pending (run db ops) t = pending db t ++ enqueued t ops := by
  induction ops with
  | nil => intro db t; simp [log, run, delivered, enqueued]
  | cons op ops ih =>
    intro db t
    cases op with
    | get u =>
      simp only [log, run, record, step, delivered, enqueued]
      by_cases hu : u = t
      · subst hu
        cases hok : (GetMsg db u).1.2 with
        | true =>
          simp only [true_and, if_true, List.cons_append, and_self]
          rw [ih, pending_GetMsg_found db u hok]
          simp
        | false =>
          simp only [true_and, Bool.false_eq_true, if_false]
          rw [ih, pending_GetMsg_not_found db u u hok]
      · simp only [hu, false_and, if_false]
        rw [ih, pending_GetMsg_ne db u t hu]
    | put u n =>
      simp only [log, run, record, step, delivered, enqueued]
      rw [ih, pending_PutMsg]
      by_cases hu : u = t
      · simp [hu]
      · simp [hu]

theorem getN_pending (ms : List String) : ∀ (db : DB) (t : topic), pending db t = ms →
    getN db t ms.length = ms.map (fun m => (m, true)) := by
  induction ms with
  | nil => intro db t _; simp [getN]
  | cons m rest ih =>
    intro db t h
    have hl := lookup_of_pending_cons h
    have hg := GetMsg_found db t m rest hl
    simp only [List.length_cons, getN, List.map_cons, hg]
    congr 1
    apply ih
    simp [pending]

/-! ## Signal channels and the keys of the two maps -/

theorem chanOf_newTopicChan_self (db : DB) (t : topic) : chanOf (newTopicChan db t) t ≠ none := by
  unfold newTopicChan
  by_cases h : chanOf db t = none
  · rw [if_pos h]; simp [chanOf]
  · rw [if_neg h]; exact h

theorem newTopicChan_lookup_ne (db : DB) (t u : topic) (h : u ≠ t) :
    (newTopicChan db t).globalQueue.lookup u = db.globalQueue.lookup u := by
  unfold newTopicChan
  by_cases hc : chanOf db t = none
  · rw [if_pos hc]; simp [AList.lookup_insert_ne h]
  · rw [if_neg hc]

theorem newTopicChan_of_chan (db : DB) (t : topic) (h : chanOf db t ≠ none) :
    newTopicChan db t = db := by
  simp [newTopicChan, h]

theorem chanOf_newTopicChan_keep (db : DB) (t u : topic) (h : chanOf db u ≠ none) :
    chanOf (newTopicChan db t) u = chanOf db u := by
  by_cases hu : u = t
  · subst hu; rw [newTopicChan_of_chan db u h]
  · simp [chanOf, newTopicChan_lookup_ne db t u hu]

theorem mem_globalQueue_of_chan {db : DB} {t : topic} (h : chanOf db t ≠ none) :
    t ∈ db.globalQueue := by
  rw [← AList.lookup_isSome]
  unfold chanOf at h
  cases hl : db.globalQueue.lookup t with
  | none => simp [hl] at h
  | some c => rfl

theorem mem_newTopicChan (db : DB) (t u : topic) (h : u ∈ db.globalQueue) :
    u ∈ (newTopicChan db t).globalQueue := by
  unfold newTopicChan
  by_cases hc : chanOf db t = none
  · rw [if_pos hc]; simp [AList.mem_insert, h]
  · rw [if_neg hc]; exact h

theorem PutMsg_globalQueue (db : DB) (t : topic) (n : String) :
    (PutMsg db t n).globalQueue =
      (if (db.queue.lookup t).isNone then newTopicChan db t else db).globalQueue := by
  unfold PutMsg
  rfl

theorem mem_queue_iff_lookup {db : DB} {t : topic} : t ∈ db.queue ↔ db.queue.lookup t ≠ none := by
  rw [← AList.lookup_isSome]
  cases db.queue.lookup t <;> simp

theorem mem_queue_GetMsg (db : DB) (u t : topic) : t ∈ (GetMsg db u).2.queue ↔ t ∈ db.queue := by
  rcases GetMsg_cases db u with ⟨_, e⟩ | ⟨_, e⟩ | ⟨m, rest, hl, e⟩
  · rw [e, newTopicChan_queue]
  · rw [e]
  · rw [e]
    have hu : u ∈ db.queue := by rw [mem_queue_iff_lookup, hl]; simp
    simp only [AList.mem_insert]
    constructor
    · rintro (h | h)
      · rw [h]; exact hu
      · exact h
    · exact Or.inr

theorem mem_queue_PutMsg (db : DB) (u t : topic) (n : String) :
    t ∈ (PutMsg db u n).queue ↔ t = u ∨ t ∈ db.queue := by
  rw [PutMsg_queue, AList.mem_insert]

theorem mem_queue_run (ops : List Op) : ∀ (db : DB) (t : topic),
    t ∈ (run db ops).queue ↔ t ∈ db.queue ∨ t ∈ written ops := by
  induction ops with
  | nil => intro db t; simp [run, written]
  | cons op ops ih =>
    intro db t
    cases op with
    | get u => simp [run, step, written, ih, mem_queue_GetMsg]
    | put u n =>
      simp only [run, step, written, ih, mem_queue_PutMsg, List.mem_cons]
      tauto

/-- The store invariant: a topic with a queue entry has a signal channel. -/
theorem chan_of_queue_step (db : DB) (op : Op)
    (h : ∀ t : topic, t ∈ db.queue → chanOf db t ≠ none) :
    ∀ t : topic, t ∈ (step db op).queue → chanOf (step db op) t ≠ none := by
  intro t ht
  cases op with
  | get u =>
    simp only [step] at ht ⊢
    rw [mem_queue_GetMsg] at ht
    rcases GetMsg_cases db u with ⟨_, e⟩ | ⟨_, e⟩ | ⟨m, rest, hl, e⟩
    · rw [e]
      show chanOf (newTopicChan db u) t ≠ none
      rw [chanOf_newTopicChan_keep db u t (h t ht)]
      exact h t ht
    · rw [e]; exact h t ht
    · rw [e]; exact h t ht
  | put u n =>
    simp only [step] at ht ⊢
    rw [mem_queue_PutMsg] at ht
    have key : chanOf (PutMsg db u n) t =
        chanOf (if (db.queue.lookup u).isNone then newTopicChan db u else db) t := by
      simp [chanOf, PutMsg_globalQueue]
    rw [key]
    by_cases hq : (db.queue.lookup u).isNone
    · simp only [hq, if_true]
      rcases ht with ht | ht
      · rw [ht]; exact chanOf_newTopicChan_self db u
      · rw [chanOf_newTopicChan_keep db u t (h t ht)]; exact h t ht
    · simp only [hq]
      have hu : u ∈ db.queue := by
        rw [mem_queue_iff_lookup]
        intro e; rw [e] at hq; simp at hq
      rcases ht with ht | ht
      · rw [ht]; exact h u hu
      · exact h t ht

theorem chan_of_queue_run (ops : List Op) : ∀ db : DB,
    (∀ t : topic, t ∈ db.queue → chanOf db t ≠ none) →
    ∀ t : topic, t ∈ (run db ops).queue → chanOf (run db ops) t ≠ none := by
  induction ops with
  | nil => intro db h; simpa [run] using h
  | cons op ops ih =>
    intro db h
    simp only [run]
    exact ih (step db op) (chan_of_queue_step db op h)

theorem chan_of_queue_reachable {db : DB} (hr : Reachable db) :
    ∀ t : topic, t ∈ db.queue → chanOf db t ≠ none := by
  obtain ⟨ops, rfl⟩ := hr
  apply chan_of_queue_run
  intro t ht
  exact absurd ht (AList.not_mem_empty t)

/-! ## Counting calls and the size of the store -/

theorem foundCount_eq (t : topic) (cs : List Call) :
    foundCount t cs = (delivered t cs).length := by
  induction cs with
  | nil => rfl
  | cons c cs ih =>
    cases c with
    | got u msg ok =>
      simp only [foundCount, delivered]
      split <;> simp [ih]
    | didPut u n => simpa [foundCount, delivered] using ih

theorem putCount_eq (t : topic) (ops : List Op) :
    putCount t ops = (enqueued t ops).length := by
  induction ops with
  | nil => rfl
  | cons op ops ih =>
    cases op with
    | get u => simpa [putCount, enqueued] using ih
    | put u n =>
      simp only [putCount, enqueued]
      split <;> simp [ih]

theorem Len_le_step (db : DB) (op : Op) : Len db ≤ Len (step db op) := by
  unfold Len
  apply List.Subperm.length_le
  apply List.subperm_of_subset (AList.keys_nodup _)
  intro u hu
  rw [← AList.mem_keys] at hu ⊢
  cases op with
  | get t => exact (mem_queue_GetMsg db t u).mpr hu
  | put t n => exact (mem_queue_PutMsg db t u n).mpr (Or.inr hu)

theorem Len_le_run (ops : List Op) : ∀ db : DB, Len db ≤ Len (run db ops) := by
  induction ops with
  | nil => intro db; exact Nat.le_refl _
  | cons op ops ih => intro db; exact Nat.le_trans (Len_le_step db op) (ih (step db op))

/-! ## Properties of the specification -/

/-- C1 (FIFO): from a store in which topic `t` has no pending message, after any sequence of
calls in which no `GetMsg(t)` reported found and whose `PutMsg(t, _)` calls enqueued
`m1, ..., mk` in that order, the next `k` calls of `GetMsg(t)` all report found and return
`m1, ..., mk` in that order. -/
theorem fifo_order (db : DB) (t : topic) (ops : List Op) (ms : List String)
    (hempty : pending db t = [])
    (hput : enqueued t ops = ms)
    (hnone : delivered t (log db ops) = []) :
    getN (run db ops) t ms.length = ms.map (fun m => (m, true)) := by
  apply getN_pending
  have h := history ops db t
  rw [hempty, hput, hnone] at h
  simpa using h

/-- C1 at the scenario of the specification: `a` then `b` written to topic `x` of a new store,
two reads return `a` then `b`. -/
theorem fifo_order_witness :
    getN (run New [.put "x" "a", .put "x" "b"]) "x" 2 = [("a", true), ("b", true)] :=
  fifo_order New "x" [.put "x" "a", .put "x" "b"] ["a", "b"] (by decide) (by decide) (by decide)

/-- C2: when the queue of `t` is `m :: rest`, `GetMsg(t)` returns `(m, true)`, leaves the
queue of `t` equal to `rest`, and leaves the queue of every other topic unchanged. -/
theorem GetMsg_removes_oldest (db : DB) (t : topic) (m : String) (rest : List String)
    (h : db.queue.lookup t = some (m :: rest)) :
    (GetMsg db t).1 = (m, true) ∧
    (GetMsg db t).2.queue.lookup t = some rest ∧
    ∀ u : topic, u ≠ t → (GetMsg db t).2.queue.lookup u = db.queue.lookup u := by
  rw [GetMsg_found db t m rest h]
  refine ⟨rfl, ?_, ?_⟩
  · simp
  · intro u hu
    simp [AList.lookup_insert_ne hu]

/-- C2 on a store holding `a, b` under `x` and `c` under `y`. -/
theorem GetMsg_removes_oldest_witness :
    (GetMsg (run New [.put "x" "a", .put "y" "c", .put "x" "b"]) "x").1 = ("a", true) ∧
    (GetMsg (run New [.put "x" "a", .put "y" "c", .put "x" "b"]) "x").2.queue.lookup "x"
      = some ["b"] ∧
    ∀ u : topic, u ≠ "x" →
      (GetMsg (run New [.put "x" "a", .put "y" "c", .put "x" "b"]) "x").2.queue.lookup u
        = (run New [.put "x" "a", .put "y" "c", .put "x" "b"]).queue.lookup u :=
  GetMsg_removes_oldest (run New [.put "x" "a", .put "y" "c", .put "x" "b"]) "x" "a" ["b"]
    (by decide)

/-- C3: `GetMsg(t)` reports found exactly when `t` has a queue entry holding at least one
message; when it reports not-found the returned message is the empty string and the pending
messages of every topic are the same after the call as before it. -/
theorem GetMsg_found_iff (db : DB) (t : topic) :
    ((GetMsg db t).1.2 = true ↔ ∃ m rest, db.queue.lookup t = some (m :: rest)) ∧
    ((GetMsg db t).1.2 = false →
      (GetMsg db t).1.1 = "" ∧ ∀ u : topic, pending (GetMsg db t).2 u = pending db u) := by
  constructor
  · rcases GetMsg_cases db t with ⟨hl, e⟩ | ⟨hl, e⟩ | ⟨m, rest, hl, e⟩
    · simp [e, hl]
    · simp [e, hl]
    · simp [e, hl]
  · intro h
    refine ⟨?_, fun u => pending_GetMsg_not_found db t u h⟩
    rcases GetMsg_cases db t with ⟨_, e⟩ | ⟨_, e⟩ | ⟨m, rest, _, e⟩
    · rw [e]
    · rw [e]
    · rw [e] at h; simp at h

/-- C3 on a new store: the read of the never-seen topic `x` reports not-found, returns the
empty string and leaves every topic without pending messages. -/
theorem GetMsg_found_iff_witness :
    (GetMsg New "x").1.1 = "" ∧ ∀ u : topic, pending (GetMsg New "x").2 u = pending New u :=
  (GetMsg_found_iff New "x").2 (by decide)

/-- C4: in every store reachable from `New()`, after `PutMsg(t, n)` the queue of `t` is its
previous queue (empty if `t` was absent) with `n` appended at the end, `t` has a signal
channel (an entry of the signal-channel map holding a non-nil channel), and the queue and the
signal channel of every other topic are unchanged. -/
theorem PutMsg_effect (db : DB) (hr : Reachable db) (t : topic) (n : String) :
    (PutMsg db t n).queue.lookup t = some (pending db t ++ [n]) ∧
    (t ∈ (PutMsg db t n).globalQueue ∧ chanOf (PutMsg db t n) t ≠ none) ∧
    ∀ u : topic, u ≠ t →
      (PutMsg db t n).queue.lookup u = db.queue.lookup u ∧
      (PutMsg db t n).globalQueue.lookup u = db.globalQueue.lookup u := by
  have hc : chanOf (PutMsg db t n) t ≠ none :=
    chan_of_queue_step db (.put t n) (chan_of_queue_reachable hr) t
      ((mem_queue_PutMsg db t t n).mpr (Or.inl rfl))
  refine ⟨?_, ⟨mem_globalQueue_of_chan hc, hc⟩, ?_⟩
  · simp [PutMsg_queue]
  · intro u hu
    constructor
    · rw [PutMsg_queue, AList.lookup_insert_ne hu]
    · rw [PutMsg_globalQueue]
      by_cases hq : (db.queue.lookup t).isNone
      · rw [if_pos hq]; exact newTopicChan_lookup_ne db t u hu
      · rw [if_neg hq]

/-- C4 on the store reached by a read of `y` and a write of `a` to `x`: a second write to `x`
appends, `x` has its channel, and topic `y` keeps its (absent) queue and its channel. -/
theorem PutMsg_effect_witness :
    (PutMsg (run New [.get "y", .put "x" "a"]) "x" "b").queue.lookup "x" = some ["a", "b"] ∧
    chanOf (PutMsg (run New [.get "y", .put "x" "a"]) "x" "b") "x" ≠ none ∧
    (PutMsg (run New [.get "y", .put "x" "a"]) "x" "b").globalQueue.lookup "y"
      = (run New [.get "y", .put "x" "a"]).globalQueue.lookup "y" :=
  ⟨(PutMsg_effect (run New [.get "y", .put "x" "a"]) ⟨[.get "y", .put "x" "a"], rfl⟩
      "x" "b").1,
   (PutMsg_effect (run New [.get "y", .put "x" "a"]) ⟨[.get "y", .put "x" "a"], rfl⟩
      "x" "b").2.1.2,
   ((PutMsg_effect (run New [.get "y", .put "x" "a"]) ⟨[.get "y", .put "x" "a"], rfl⟩
      "x" "b").2.2 "y" (by decide)).2⟩

/-- C5, as amended: in every store reachable from `New()`, a topic with a queue entry has an
entry in the signal-channel map holding a channel; a read of a topic absent from the
signal-channel map creates the channel and no queue entry; a write creates both. -/
theorem queue_entry_has_channel (db : DB) (hr : Reachable db) (t : topic) :
    (t ∈ db.queue → t ∈ db.globalQueue ∧ chanOf db t ≠ none) ∧
    (t ∉ db.globalQueue →
      t ∉ db.queue ∧
      t ∈ (GetMsg db t).2.globalQueue ∧ chanOf (GetMsg db t).2 t ≠ none ∧
      t ∉ (GetMsg db t).2.queue) ∧
    (∀ n : String, t ∈ (PutMsg db t n).queue ∧
      t ∈ (PutMsg db t n).globalQueue ∧ chanOf (PutMsg db t n) t ≠ none) := by
  have inv := chan_of_queue_reachable hr
  refine ⟨fun h => ⟨mem_globalQueue_of_chan (inv t h), inv t h⟩, ?_, ?_⟩
  · intro hg
    have hq : t ∉ db.queue := fun h => hg (mem_globalQueue_of_chan (inv t h))
    have hl : db.queue.lookup t = none := AList.lookup_eq_none.mpr hq
    rw [GetMsg_missing db t hl]
    refine ⟨hq, mem_globalQueue_of_chan (chanOf_newTopicChan_self db t),
      chanOf_newTopicChan_self db t, ?_⟩
    show t ∉ (newTopicChan db t).queue
    rw [newTopicChan_queue]; exact hq
  · intro n
    have hr2 : Reachable (PutMsg db t n) := by
      obtain ⟨ops, rfl⟩ := hr
      refine ⟨ops ++ [.put t n], ?_⟩
      have : ∀ (l : List Op) (d : DB), run d (l ++ [.put t n]) = PutMsg (run d l) t n := by
        intro l
        induction l with
        | nil => intro d; rfl
        | cons o l ih => intro d; simp [run, ih]
      rw [this]
    have hm : t ∈ (PutMsg db t n).queue := (mem_queue_PutMsg db t t n).mpr (Or.inl rfl)
    have hc := chan_of_queue_reachable hr2 t hm
    exact ⟨hm, mem_globalQueue_of_chan hc, hc⟩

/-- C5 on the store reached by one write to `x`, for the topics `x` (written) and `y` (never
seen). -/
theorem queue_entry_has_channel_witness :
    ("x" ∈ (run New [.put "x" "a"]).globalQueue ∧ chanOf (run New [.put "x" "a"]) "x" ≠ none) ∧
    "y" ∉ (GetMsg (run New [.put "x" "a"]) "y").2.queue :=
  ⟨(queue_entry_has_channel (run New [.put "x" "a"]) ⟨[.put "x" "a"], rfl⟩ "x").1 (by decide),
   ((queue_entry_has_channel (run New [.put "x" "a"]) ⟨[.put "x" "a"], rfl⟩ "y").2.1
      (by decide)).2.2.2⟩

/-- C5 as stated fails: after `GetMsg("a")` on `New()`, a reachable store, topic `a` has an
entry in the signal-channel map and none in the queue map. -/
theorem channel_without_queue_counterexample :
    "a" ∉ New.queue ∧ "a" ∉ New.globalQueue ∧
    Reachable (GetMsg New "a").2 ∧
    "a" ∈ (GetMsg New "a").2.globalQueue ∧ "a" ∉ (GetMsg New "a").2.queue :=
  ⟨by decide, by decide, ⟨[.get "a"], rfl⟩, by decide, by decide⟩

/-- C6, as amended: after any sequence of calls from `New()`, `Len()` is the number of
distinct topics that appeared as the argument of a `PutMsg` call. -/
theorem Len_counts_written (ops : List Op) :
    Len (run New ops) = (written ops).dedup.length := by
  unfold Len
  apply List.Perm.length_eq
  rw [List.perm_ext_iff_of_nodup (AList.keys_nodup _) (List.nodup_dedup _)]
  intro t
  rw [← AList.mem_keys, mem_queue_run, List.mem_dedup]
  simp [New]

/-- C6 as stated fails: after the single call `GetMsg("a")` on `New()` one topic has been
referenced and `Len()` is 0. -/
theorem Len_counterexample :
    Len (run New [.get "a"]) = 0 ∧ (touched [.get "a"]).dedup.length = 1 := by
  decide

/-- C7 (conservation): at every point of a run of calls from `New()`, that is after every
prefix of the sequence, and for every topic `t`, the number of `GetMsg(t)` calls that
reported found plus the length of the queue of `t` is the number of `PutMsg(t, _)` calls. -/
theorem conservation (ops : List Op) (k : Nat) (t : topic) :
    foundCount t (log New (ops.take k)) + (pending (run New (ops.take k)) t).length
      = putCount t (ops.take k) := by
  have h := congrArg List.length (history (ops.take k) New t)
  rw [foundCount_eq, putCount_eq]
  simpa [New, pending] using h

/-- C8 (at-most-once): in a run of calls from `New()` in which the payloads enqueued on `t`
are pairwise distinct, the messages returned by the successful `GetMsg(t)` calls are pairwise
distinct: no payload is returned by two of them. -/
theorem at_most_once (ops : List Op) (t : topic) (hd : (enqueued t ops).Nodup) :
    (delivered t (log New ops)).Nodup := by
  have h := history ops New t
  have h0 : pending New t = [] := by simp [New, pending]
  rw [h0, List.nil_append] at h
  rw [← h] at hd
  exact (List.nodup_append.mp hd).1

/-- C8 on a run that writes `a`, `b` to `x` and reads three times. -/
theorem at_most_once_witness :
    (delivered "x" (log New [.put "x" "a", .get "x", .put "x" "b", .get "x", .get "x"])).Nodup :=
  at_most_once [.put "x" "a", .get "x", .put "x" "b", .get "x", .get "x"] "x" (by decide)

/-- C9: a single `GetMsg` or `PutMsg` call keeps every entry of the queue map and every entry
of the signal-channel map, and a topic that has a channel keeps that channel; a dequeue that
empties a queue leaves the (empty) entry in place; so `Len()` does not decrease over a call
nor over any further run of calls. -/
theorem maps_only_grow (db : DB) (op : Op) :
    (∀ u : topic, u ∈ db.queue → u ∈ (step db op).queue) ∧
    (∀ u : topic, u ∈ db.globalQueue → u ∈ (step db op).globalQueue) ∧
    (∀ u : topic, chanOf db u ≠ none → chanOf (step db op) u = chanOf db u) ∧
    (∀ (t : topic) (m : String), db.queue.lookup t = some [m] →
      (GetMsg db t).2.queue.lookup t = some []) ∧
    Len db ≤ Len (step db op) ∧
    ∀ ops : List Op, Len db ≤ Len (run (step db op) ops) := by
  refine ⟨?_, ?_, ?_, ?_, Len_le_step db op, fun ops =>
    Nat.le_trans (Len_le_step db op) (Len_le_run ops _)⟩
  · intro u hu
    cases op with
    | get t => exact (mem_queue_GetMsg db t u).mpr hu
    | put t n => exact (mem_queue_PutMsg db t u n).mpr (Or.inr hu)
  · intro u hu
    cases op with
    | get t =>
      simp only [step]
      rcases GetMsg_cases db t with ⟨_, e⟩ | ⟨_, e⟩ | ⟨m, rest, _, e⟩
      · rw [e]; exact mem_newTopicChan db t u hu
      · rw [e]; exact hu
      · rw [e]; exact hu
    | put t n =>
      simp only [step]
      rw [PutMsg_globalQueue]
      by_cases hq : (db.queue.lookup t).isNone
      · rw [if_pos hq]; exact mem_newTopicChan db t u hu
      · rw [if_neg hq]; exact hu
  · intro u hu
    cases op with
    | get t =>
      simp only [step]
      rcases GetMsg_cases db t with ⟨_, e⟩ | ⟨_, e⟩ | ⟨m, rest, _, e⟩
      · rw [e]; exact chanOf_newTopicChan_keep db t u hu
      · rw [e]
      · rw [e]; rfl
    | put t n =>
      simp only [step]
      have key : chanOf (PutMsg db t n) u =
          chanOf (if (db.queue.lookup t).isNone then newTopicChan db t else db) u := by
        simp [chanOf, PutMsg_globalQueue]
      rw [key]
      by_cases hq : (db.queue.lookup t).isNone
      · rw [if_pos hq]; exact chanOf_newTopicChan_keep db t u hu
      · rw [if_neg hq]
  · intro t m h
    rw [GetMsg_found db t m [] h]
    simp

/-- C9 on the store holding the single message `a` under `x`: the read that empties the queue
keeps the entry. -/
theorem maps_only_grow_witness :
    "x" ∈ (step (run New [.put "x" "a"]) (.get "x")).queue ∧
    (GetMsg (run New [.put "x" "a"]) "x").2.queue.lookup "x" = some [] :=
  ⟨(maps_only_grow (run New [.put "x" "a"]) (.get "x")).1 "x" (by decide),
   (maps_only_grow (run New [.put "x" "a"]) (.get "x")).2.2.2.1 "x" "a" (by decide)⟩

/-- C10 (first-attempt success): when the queue of `t` is `m :: rest`, `consumer(t, timeout)`
returns `(m, true)` for every timeout value and every behaviour of the other requests, the
store after it is the store after a single `GetMsg(t)`, and the only operation it performed
is that `GetMsg(t)`: no receive from the signal channel, no timer. -/
theorem consumer_first_attempt (db : DB) (t : topic) (m : String) (rest : List String)
    (timeout : Int) (env : List Tick) (h : db.queue.lookup t = some (m :: rest)) :
    (consumer db t timeout env).result = some (m, true) ∧
    (consumer db t timeout env).db = (GetMsg db t).2 ∧
    (consumer db t timeout env).trace = [Event.getMsg t] := by
  simp [consumer, GetMsg_found db t m rest h]

/-- C10 at the first scenario of the specification: `cat` written to `pets`, then a read in
the endless-waiting mode. -/
theorem consumer_first_attempt_witness :
    (consumer (PutMsg New "pets" "cat") "pets" EndlessWaiting []).result = some ("cat", true) ∧
    (consumer (PutMsg New "pets" "cat") "pets" EndlessWaiting []).db
      = (GetMsg (PutMsg New "pets" "cat") "pets").2 ∧
    (consumer (PutMsg New "pets" "cat") "pets" EndlessWaiting []).trace
      = [Event.getMsg "pets"] :=
  consumer_first_attempt (PutMsg New "pets" "cat") "pets" "cat" [] EndlessWaiting []
    (by decide)

/-! ## Splitting a path -/

theorem splitSlash_of_not_mem : ∀ cs : List Char, '/' ∉ cs → splitSlash cs = [cs] := by
  intro cs
  induction cs with
  | nil => intro _; rfl
  | cons c cs ih =>
    intro h
    have hc : c ≠ '/' := fun e => h (by simp [e])
    have hcs : '/' ∉ cs := fun e => h (List.mem_cons_of_mem c e)
    simp [splitSlash, hc, ih hcs]

theorem splitSlash_of_mem : ∀ cs : List Char, '/' ∈ cs →
    ∃ a b rest, splitSlash cs = a :: b :: rest := by
  intro cs
  induction cs with
  | nil => intro h; simp at h
  | cons c cs ih =>
    intro h
    by_cases hc : c = '/'
    · subst hc
      by_cases hcs : '/' ∈ cs
      · obtain ⟨a, b, rest, e⟩ := ih hcs
        exact ⟨[], a, b :: rest, by simp [splitSlash, e]⟩
      · exact ⟨[], cs, [], by simp [splitSlash, splitSlash_of_not_mem cs hcs]⟩
    · have hcs : '/' ∈ cs := by
        rcases List.mem_cons.mp h with e | e
        · exact absurd e.symm hc
        · exact e
      obtain ⟨a, b, rest, e⟩ := ih hcs
      exact ⟨c :: a, b, rest, by simp [splitSlash, hc, e]⟩

theorem Split_slash_topic (t : String) (hs : '/' ∉ t.data) : Split ("/" ++ t) = ["", t] := by
  have hd : ("/" ++ t).data = '/' :: t.data := by simp [String.data_append]
  simp [Split, hd, splitSlash, splitSlash_of_not_mem t.data hs]

/-- On an accepted path the handler dispatches on the method. -/
theorem msgHandler_put (db : DB) (r : Request) (env : List Tick) (s t : String)
    (hp : Split r.path = [s, t]) (ht : t ≠ "") (hm : r.method = "PUT") :
    msgHandler db r env =
      if Get r.query "v" = "" then ⟨some ⟨400, ""⟩, db, []⟩
      else ⟨some ⟨200, ""⟩, PutMsg db t (Get r.query "v"), []⟩ := by
  simp [msgHandler, hp, ht, hm]

theorem consumer_found (db : DB) (t : topic) (m : String) (rest : List String)
    (timeout : Int) (env : List Tick) (h : db.queue.lookup t = some (m :: rest)) :
    consumer db t timeout env = ⟨some (m, true), (GetMsg db t).2, [Event.getMsg t]⟩ := by
  simp [consumer, GetMsg_found db t m rest h]

/-- C11 (no-wait contract): when the queue of `t` is absent or empty, `consumer(t,
WithoutWaiting)` returns `("", false)`, whatever the other requests do; the only operation it
performed is one `GetMsg(t)` (no receive from the signal channel, no timer), the store after
it is the store after that call, and the pending messages of every topic are unchanged. -/
theorem consumer_no_wait (db : DB) (t : topic) (env : List Tick)
    (h : db.queue.lookup t = none ∨ db.queue.lookup t = some []) :
    (consumer db t WithoutWaiting env).result = some ("", false) ∧
    (consumer db t WithoutWaiting env).trace = [Event.getMsg t] ∧
    (consumer db t WithoutWaiting env).db = (GetMsg db t).2 ∧
    ∀ u : topic, pending (consumer db t WithoutWaiting env).db u = pending db u := by
  have hnot : (GetMsg db t).1.2 = false := by
    rcases h with h | h
    · rw [GetMsg_missing db t h]
    · rw [GetMsg_empty db t h]
  have hc : consumer db t WithoutWaiting env = ⟨some ("", false), (GetMsg db t).2, [Event.getMsg t]⟩ := by
    simp [consumer, hnot]
  rw [hc]
  exact ⟨rfl, rfl, rfl, fun u => pending_GetMsg_not_found db t u hnot⟩

/-- C11 at the second scenario of the specification: a read of the fresh topic `pets` with
`timeout=-2`. -/
theorem consumer_no_wait_witness :
    (consumer New "pets" WithoutWaiting []).result = some ("", false) ∧
    (consumer New "pets" WithoutWaiting []).trace = [Event.getMsg "pets"] ∧
    (consumer New "pets" WithoutWaiting []).db = (GetMsg New "pets").2 ∧
    ∀ u : topic, pending (consumer New "pets" WithoutWaiting []).db u = pending New u :=
  consumer_no_wait New "pets" [] (Or.inl (by decide))

/-- C12 (write then read): for a path `/t` with `t` non-empty and free of `/`, a topic `t`
without pending message and a non-empty payload `v`, the `PUT` on `/t` with `v` responds 200
with an empty body, and the `GET` on `/t` that follows responds 200 with body `v`, whatever
its query (so whatever its `timeout`). -/
theorem put_then_get (db : DB) (t v : String) (qput qget : String → List String)
    (env env2 : List Tick)
    (ht : t ≠ "") (hs : '/' ∉ t.data) (hp : pending db t = []) (hv : v ≠ "")
    (hq : Get qput "v" = v) :
    (msgHandler db ⟨"PUT", "/" ++ t, qput⟩ env).response = some ⟨200, ""⟩ ∧
    (msgHandler (msgHandler db ⟨"PUT", "/" ++ t, qput⟩ env).db ⟨"GET", "/" ++ t, qget⟩
      env2).response = some ⟨200, v⟩ := by
  have hput : msgHandler db ⟨"PUT", "/" ++ t, qput⟩ env = ⟨some ⟨200, ""⟩, PutMsg db t v, []⟩ := by
    rw [msgHandler_put db _ env "" t (Split_slash_topic t hs) ht rfl]
    simp [hq, hv]
  rw [hput]
  refine ⟨rfl, ?_⟩
  have hl : (PutMsg db t v).queue.lookup t = some (v :: []) := by
    simp [PutMsg_queue, hp]
  simp [msgHandler, Split_slash_topic t hs, ht, consumer_found _ t v [] _ env2 hl]

/-- C12 at the first scenario of the specification: `cat` written to `pets`, then read with
no timeout parameter. -/
theorem put_then_get_witness :
    (msgHandler New ⟨"PUT", "/" ++ "pets", oneParam "v" "cat"⟩ []).response = some ⟨200, ""⟩ ∧
    (msgHandler (msgHandler New ⟨"PUT", "/" ++ "pets", oneParam "v" "cat"⟩ []).db
      ⟨"GET", "/" ++ "pets", noQuery⟩ []).response = some ⟨200, "cat"⟩ :=
  put_then_get New "pets" "cat" (oneParam "v" "cat") noQuery [] []
    (by decide) (by decide) (by decide) (by decide) (by decide)

/-- C13 (rejected write): on a path `/t` with `t` non-empty and free of `/`, a `PUT` whose
parameter `v` is absent or empty responds 400 and the store after it is the store before it:
no queue entry, signal channel or message is created or changed, no notification goroutine
is started. -/
theorem put_without_payload (db : DB) (r : Request) (t : String) (env : List Tick)
    (hpath : r.path = "/" ++ t) (ht : t ≠ "") (hs : '/' ∉ t.data) (hm : r.method = "PUT")
    (hv : r.query "v" = [] ∨ ∃ rest, r.query "v" = "" :: rest) :
    (msgHandler db r env).response = some ⟨400, ""⟩ ∧
    (msgHandler db r env).db = db ∧
    (msgHandler db r env).trace = [] := by
  have hg : Get r.query "v" = "" := by
    rcases hv with e | ⟨rest, e⟩ <;> simp [Get, e]
  have hsp : Split r.path = ["", t] := by rw [hpath]; exact Split_slash_topic t hs
  rw [msgHandler_put db r env "" t hsp ht hm]
  simp [hg]

/-- C13 at the sixth scenario of the specification: a write with empty `v` to topic `x`. -/
theorem put_without_payload_witness :
    (msgHandler New ⟨"PUT", "/x", oneParam "v" ""⟩ []).response = some ⟨400, ""⟩ ∧
    (msgHandler New ⟨"PUT", "/x", oneParam "v" ""⟩ []).db = New ∧
    (msgHandler New ⟨"PUT", "/x", oneParam "v" ""⟩ []).trace = [] :=
  put_without_payload New ⟨"PUT", "/x", oneParam "v" ""⟩ "x" [] (by decide) (by decide)
    (by decide) (by decide) (Or.inr ⟨[], by decide⟩)

theorem toInt64_of_range (x : Int) (hlo : -9223372036854775808 ≤ x)
    (hhi : x ≤ 9223372036854775807) : toInt64 x = x := by
  unfold toInt64
  norm_num
  omega

theorem Split_eq (p : String) : Split p = (splitSlash p.data).map String.mk := rfl

theorem mk_ne_empty (cs : List Char) (h : cs ≠ []) : String.mk cs ≠ "" := by
  intro e
  apply h
  have := congrArg String.data e
  simpa using this

/-- C14, where the code and the claim part: the parameter `timeout=9223372037` parses to the
non-negative integer 9223372037, and `time.Second * time.Duration(timeout)` wraps around to a
negative duration, so the read of the empty topic `pets` starts a timer that fires at once and
answers 404; the timer is one of `n` seconds only for `n ≤ 9223372036`. The other cases of the
claim hold: an absent parameter does not parse, `-1` is `EndlessWaiting`, `-2` is
`WithoutWaiting`. -/
theorem timed_wait_overflow :
    (∀ n : Int, 0 ≤ n → n ≤ 9223372036 → duration n = n * 1000000000) ∧
    (∀ q : String → List String, q "timeout" = [] → Atoi (Get q "timeout") = none) ∧
    Atoi "-1" = some EndlessWaiting ∧ Atoi "-2" = some WithoutWaiting ∧
    Atoi "9223372037" = some 9223372037 ∧
    duration 9223372037 = -9223372036709551616 ∧
    (msgHandler New ⟨"GET", "/pets", oneParam "timeout" "9223372037"⟩ [⟨[], .timer⟩]).trace
      = [.getMsg "pets", .recv "pets", .after (-9223372036709551616)] ∧
    (msgHandler New ⟨"GET", "/pets", oneParam "timeout" "9223372037"⟩ [⟨[], .timer⟩]).response
      = some ⟨404, ""⟩ := by
  refine ⟨?_, ?_, by decide, by decide, by decide, by decide, by decide, by decide⟩
  · intro n h0 h1
    unfold duration
    rw [toInt64_of_range n (by omega) (by omega), toInt64_of_range _ (by omega) (by omega)]
    ring
  · intro q hq
    simp only [Get, hq]
    decide

theorem splitSlash_length (cs : List Char) :
    (splitSlash cs).length = cs.count '/' + 1 := by
  induction cs with
  | nil => rfl
  | cons c cs ih =>
    by_cases hc : c = '/'
    · subst hc
      simp [splitSlash, ih]
    · cases hs : splitSlash cs with
      | nil => rw [hs] at ih; simp at ih
      | cons seg segs =>
        rw [hs] at ih
        simp only [List.length_cons] at ih
        simp [splitSlash, hc, hs, List.count_cons, ih]

theorem splitSlash_append_slash (cs : List Char) :
    splitSlash (cs ++ ['/']) = splitSlash cs ++ [[]] := by
  induction cs with
  | nil => rfl
  | cons c cs ih =>
    by_cases hc : c = '/'
    · subst hc
      simp [splitSlash, ih]
    · cases hs : splitSlash cs with
      | nil =>
        have := splitSlash_length cs
        rw [hs] at this
        simp at this
      | cons seg segs =>
        rw [hs] at ih
        simp [splitSlash, hc, ih, hs]

/-- The handler answers 400 as soon as the path does not split into exactly two segments
with a non-empty second one. -/
theorem msgHandler_bad_path (db : DB) (r : Request) (env : List Tick)
    (h : ∀ s t : String, Split r.path = [s, t] → t = "") :
    msgHandler db r env = ⟨some ⟨400, ""⟩, db, []⟩ := by
  rcases hS : Split r.path with _ | ⟨a, _ | ⟨b, _ | ⟨c, l⟩⟩⟩
  · simp [msgHandler, hS]
  · simp [msgHandler, hS]
  · have hb := h a b hS
    subst hb
    simp [msgHandler, hS]
  · simp [msgHandler, hS]

theorem msgHandler_slash_count (db : DB) (r : Request) (env : List Tick)
    (h : r.path.data.count '/' ≠ 1) :
    msgHandler db r env = ⟨some ⟨400, ""⟩, db, []⟩ := by
  apply msgHandler_bad_path
  intro s t hS
  exfalso
  apply h
  have hl := congrArg List.length hS
  rw [Split_eq, List.length_map, splitSlash_length] at hl
  simpa using hl

theorem msgHandler_trailing_slash (db : DB) (r : Request) (env : List Tick)
    (h : r.path.data.getLast? = some '/') :
    msgHandler db r env = ⟨some ⟨400, ""⟩, db, []⟩ := by
  apply msgHandler_bad_path
  intro s t hS
  obtain ⟨cs, hcs⟩ := List.getLast?_eq_some_iff.mp h
  rw [Split_eq, hcs, splitSlash_append_slash, List.map_append] at hS
  rcases hm : (splitSlash cs).map String.mk with _ | ⟨a, _ | ⟨b, l⟩⟩
  · rw [hm] at hS; simp at hS
  · rw [hm] at hS
    simp at hS
    rw [← hS.2]
  · rw [hm] at hS; simp at hS

/-- C15 (request validation): for every request whose path is empty or begins with `/`, as
every path the server hands to the handler does (and also for every other path that has no
`/`, several `/`, or a `/` at its end): when the path is not `/` followed by one non-empty
segment free of `/`, the handler responds 400; when it is, and the method is neither `GET` nor
`PUT`, the handler responds 404; in both cases the store is unchanged and nothing is done on
it. -/
theorem handler_validation (db : DB) (r : Request) (env : List Tick)
    (hrecv : r.path = "" ∨ r.path.data.head? = some '/' ∨
      r.path.data.count '/' ≠ 1 ∨ r.path.data.getLast? = some '/') :
    (wellFormedPath r.path = false →
      (msgHandler db r env).response = some ⟨400, ""⟩ ∧
      (msgHandler db r env).db = db ∧ (msgHandler db r env).trace = []) ∧
    (wellFormedPath r.path = true → r.method ≠ "GET" → r.method ≠ "PUT" →
      (msgHandler db r env).response = some ⟨404, ""⟩ ∧
      (msgHandler db r env).db = db ∧ (msgHandler db r env).trace = []) := by
  constructor
  · intro hw
    have hbad : r.path.data.count '/' ≠ 1 ∨ r.path.data.getLast? = some '/' := by
      rcases hrecv with e | e | e | e
      · left; rw [e]; decide
      · cases hd : r.path.data with
        | nil => rw [hd] at e; simp at e
        | cons c cs =>
          rw [hd] at e
          have hc : c = '/' := by simpa using e
          subst hc
          by_cases hnil : cs = []
          · right; subst hnil; rfl
          · left
            have hmem : '/' ∈ cs := by
              by_contra hmem
              simp [wellFormedPath, hd, hnil, hmem] at hw
            have := List.one_le_count_iff.mpr hmem
            simp only [List.count_cons_self]
            omega
      · exact Or.inl e
      · exact Or.inr e
    have hm : msgHandler db r env = ⟨some ⟨400, ""⟩, db, []⟩ := by
      rcases hbad with e | e
      · exact msgHandler_slash_count db r env e
      · exact msgHandler_trailing_slash db r env e
    rw [hm]
    exact ⟨rfl, rfl, rfl⟩
  · intro hw hg hp
    cases hd : r.path.data with
    | nil => simp [wellFormedPath, hd] at hw
    | cons c cs =>
      by_cases hc : c = '/'
      · subst hc
        have hnil : cs ≠ [] := by
          intro e; simp [wellFormedPath, hd, e] at hw
        have hmem : '/' ∉ cs := by
          intro e; simp [wellFormedPath, hd, e] at hw
        have hsp : Split r.path = ["", String.mk cs] := by
          simp [Split_eq, hd, splitSlash, splitSlash_of_not_mem cs hmem]
        simp [msgHandler, hsp, mk_ne_empty cs hnil, hg, hp]
      · simp [wellFormedPath, hd, hc] at hw

/-- C15 on the path `/a/b` (an extra segment), on the path `/` (empty topic) and on a `POST` to
`/a`. -/
theorem handler_validation_witness :
    (msgHandler New ⟨"GET", "/a/b", noQuery⟩ []).response = some ⟨400, ""⟩ ∧
    (msgHandler New ⟨"PUT", "/", oneParam "v" "x"⟩ []).db = New ∧
    (msgHandler New ⟨"POST", "/a", noQuery⟩ []).response = some ⟨404, ""⟩ :=
  ⟨((handler_validation New ⟨"GET", "/a/b", noQuery⟩ [] (Or.inr (Or.inl (by decide)))).1
      (by decide)).1,
   ((handler_validation New ⟨"PUT", "/", oneParam "v" "x"⟩ [] (Or.inr (Or.inl (by decide)))).1
      (by decide)).2.1,
   ((handler_validation New ⟨"POST", "/a", noQuery⟩ [] (Or.inr (Or.inl (by decide)))).2
      (by decide) (by decide) (by decide)).1⟩

/-- C16, on the operations each function performs: `GetMsg` and the calling goroutine of
`PutMsg` access the maps only between `Lock` and `Unlock`; `Len`, the notification goroutine
of `PutMsg` and the receive of a waiting `consumer` access a map without the lock, and a
consumer that finds its topic empty does perform such a receive. -/
theorem lock_discipline :
    (∀ (db : DB) (t : topic), guarded (GetMsgAccesses db t) = true) ∧
    (∀ (db : DB) (t : topic), guarded (PutMsgAccesses db t) = true) ∧
    guarded LenAccesses = false ∧
    guarded notifyAccesses = false ∧
    guarded recvAccesses = false ∧
    Event.recv "a" ∈ (consumer New "a" EndlessWaiting []).trace := by
  refine ⟨?_, ?_, by decide, by decide, by decide, by decide⟩
  · intro db t
    unfold GetMsgAccesses newTopicChanAccesses
    cases db.queue.lookup t with
    | none => by_cases h : chanOf db t = none <;> simp [h, guarded, guardedFrom]
    | some q => cases q <;> simp [guarded, guardedFrom]
  · intro db t
    unfold PutMsgAccesses newTopicChanAccesses
    by_cases hq : (db.queue.lookup t).isNone <;> by_cases h : chanOf db t = none <;>
      simp [hq, h, guarded, guardedFrom]

/-- C17 (delivery history): after any sequence of calls from `New()`, for every topic `t`,
the messages returned by the successful `GetMsg(t)` calls, in call order, followed by the
queue of `t`, are the messages passed to `PutMsg(t, _)`, in call order. -/
theorem delivery_history (ops : List Op) (t : topic) :
    delivered t (log New ops) ++ pending (run New ops) t = enqueued t ops := by
  have h := history ops New t
  have h0 : pending New t = [] := by simp [New, pending]
  rw [h0, List.nil_append] at h
  exact h

theorem chanOf_step_keep (db : DB) (op : Op) (u : topic) (hu : chanOf db u ≠ none) :
    chanOf (step db op) u = chanOf db u := by
  cases op with
  | get t =>
    simp only [step]
    rcases GetMsg_cases db t with ⟨_, e⟩ | ⟨_, e⟩ | ⟨m, rest, _, e⟩
    · rw [e]; exact chanOf_newTopicChan_keep db t u hu
    · rw [e]
    · rw [e]; rfl
  | put t n =>
    simp only [step]
    have key : chanOf (PutMsg db t n) u =
        chanOf (if (db.queue.lookup t).isNone then newTopicChan db t else db) u := by
      simp [chanOf, PutMsg_globalQueue]
    rw [key]
    by_cases hq : (db.queue.lookup t).isNone
    · rw [if_pos hq]; exact chanOf_newTopicChan_keep db t u hu
    · rw [if_neg hq]

theorem chanOf_run_keep (ops : List Op) : ∀ (db : DB) (u : topic), chanOf db u ≠ none →
    chanOf (run db ops) u = chanOf db u := by
  induction ops with
  | nil => intro db u _; rfl
  | cons op ops ih =>
    intro db u hu
    have h1 := chanOf_step_keep db op u hu
    simp only [run]
    rw [ih (step db op) u (by rw [h1]; exact hu), h1]

theorem run_snoc (ops : List Op) (op : Op) : ∀ db : DB,
    run db (ops ++ [op]) = step (run db ops) op := by
  induction ops with
  | nil => intro db; rfl
  | cons o l ih => intro db; simp [run, ih]

theorem reachable_step {db : DB} (hr : Reachable db) (op : Op) : Reachable (step db op) := by
  obtain ⟨ops, rfl⟩ := hr
  exact ⟨ops ++ [op], (run_snoc ops op New).symm⟩

theorem chanOf_GetMsg_self {db : DB} (hr : Reachable db) (t : topic) :
    chanOf (GetMsg db t).2 t ≠ none := by
  rcases GetMsg_cases db t with ⟨_, e⟩ | ⟨hl, e⟩ | ⟨m, rest, hl, e⟩
  · rw [e]; exact chanOf_newTopicChan_self db t
  · rw [e]
    exact chan_of_queue_reachable hr t (by rw [mem_queue_iff_lookup, hl]; simp)
  · rw [e]
    exact chan_of_queue_reachable hr t (by rw [mem_queue_iff_lookup, hl]; simp)

theorem chanOf_PutMsg_self {db : DB} (hr : Reachable db) (t : topic) (n : String) :
    chanOf (PutMsg db t n) t ≠ none :=
  chan_of_queue_reachable (reachable_step hr (.put t n)) t
    ((mem_queue_PutMsg db t t n).mpr (Or.inl rfl))

/-- C18: in every store reachable from `New()`, every topic with a queue entry has a non-nil
signal channel; after `GetMsg(t)` or `PutMsg(t, _)` topic `t` has a non-nil signal channel,
the one it had before if it had one; that channel stays the channel of `t` through every
later call, so the send started by `PutMsg` and the receive of `consumer` after its first
`GetMsg` find it whenever they run; and a consumer waiting on the empty topic `t` does
receive the notification of the next `PutMsg(t, n)` and returns `n`. -/
theorem signal_channel_present (db : DB) (hr : Reachable db) (t : topic) :
    (∀ u : topic, u ∈ db.queue → chanOf db u ≠ none) ∧
    (chanOf (GetMsg db t).2 t ≠ none ∧
      (chanOf db t ≠ none → chanOf (GetMsg db t).2 t = chanOf db t)) ∧
    (∀ n : String, chanOf (PutMsg db t n) t ≠ none ∧
      (chanOf db t ≠ none → chanOf (PutMsg db t n) t = chanOf db t)) ∧
    (∀ (n : String) (ops : List Op),
      chanOf (run (PutMsg db t n) ops) t = chanOf (PutMsg db t n) t) ∧
    (∀ ops : List Op, chanOf (run (GetMsg db t).2 ops) t = chanOf (GetMsg db t).2 t) ∧
    (∀ n : String, pending db t = [] →
      (consumer db t EndlessWaiting [⟨[.put t n], .signal⟩]).result = some (n, true)) := by
  refine ⟨chan_of_queue_reachable hr, ⟨chanOf_GetMsg_self hr t, ?_⟩, ?_, ?_, ?_, ?_⟩
  · exact fun h => chanOf_step_keep db (.get t) t h
  · exact fun n => ⟨chanOf_PutMsg_self hr t n, fun h => chanOf_step_keep db (.put t n) t h⟩
  · exact fun n ops => chanOf_run_keep ops _ t (chanOf_PutMsg_self hr t n)
  · exact fun ops => chanOf_run_keep ops _ t (chanOf_GetMsg_self hr t)
  · intro n hp
    have hnot : (GetMsg db t).1.2 = false := by
      rcases GetMsg_cases db t with ⟨_, e⟩ | ⟨_, e⟩ | ⟨m, rest, hl, e⟩
      · rw [e]
      · rw [e]
      · simp [pending, hl] at hp
    have hc : (chanOf (GetMsg db t).2 t).isSome = true := by
      have := chanOf_GetMsg_self hr t
      cases h : chanOf (GetMsg db t).2 t with
      | none => exact absurd h this
      | some c => rfl
    have hp2 : pending (GetMsg db t).2 t = [] := by
      rw [pending_GetMsg_not_found db t t hnot, hp]
    have hl : (PutMsg (GetMsg db t).2 t n).queue.lookup t = some (n :: []) := by
      simp [PutMsg_queue, hp2]
    have hs : t ∈ (PutMsg (GetMsg db t).2 t n).sends := by
      simp [PutMsg]
    have hne : EndlessWaiting ≠ WithoutWaiting := by decide
    have hg := GetMsg_found
      { PutMsg (GetMsg db t).2 t n with sends := (PutMsg (GetMsg db t).2 t n).sends.erase t }
      t n [] hl
    simp [consumer, hnot, hne, endlessWait, run, step, canRecv, hc, hs, hg]

/-- C18 on the store reached by one read of `pets`: a consumer waiting on `pets` receives the
notification of the write of `dog`. -/
theorem signal_channel_present_witness :
    chanOf (GetMsg (run New [.get "pets"]) "pets").2 "pets" ≠ none ∧
    (consumer (run New [.get "pets"]) "pets" EndlessWaiting
      [⟨[.put "pets" "dog"], .signal⟩]).result = some ("dog", true) :=
  ⟨(signal_channel_present (run New [.get "pets"]) ⟨[.get "pets"], rfl⟩ "pets").2.1.1,
   (signal_channel_present (run New [.get "pets"]) ⟨[.get "pets"], rfl⟩ "pets").2.2.2.2.2 "dog"
     (by decide)⟩

end MessageQueue
